import Mathlib

/-!
Verification of `update_version.py` (python-email-sender).

The file shallowly embeds the version-model functions of `update_version.py`
(`get_latest_version` with its inner `version_key` / `suffix_key`,
`increment_suffix`, `update_version`, and the pure text transformations of
`update_version_in_setup` / `update_version_in_init`) and proves the claims of the spec about them.  Python `ValueError`s are modelled by an explicit error
type, fallible functions return `Except`, and machine-independent Python
integers are modelled by `Int`.
-/

deriving instance DecidableEq for Except

namespace UpdateVersion

/-- The distinct `ValueError` failure modes of `update_version.py`, one
constructor per raise site, plus the failure modes of the builtin `int`
conversion and of tuple unpacking. -/
inductive PyError where
  /-- Raised as `ValueError("No versions found")`, named `EmptyInputError` by the spec. -/
  | emptyInput
  /-- `ValueError("current_version must be in the format xx.xx.xx.yy")` —
  named `MalformedVersionError` by the spec. -/
  | malformedVersion
  /-- `ValueError("At least one of major, minor, patch, or commit must be True")` —
  named `NoDirectiveError` by the spec. -/
  | noDirective
  /-- The `ValueError` raised by the builtin `int()` on a non-numeric string. -/
  | intParse
  /-- The `ValueError` raised when unpacking fewer than three mapped values. -/
  | unpackError
deriving DecidableEq

/-- Rejects two consecutive underscores inside the digit part of an integer
literal, as CPython `int()` does for `"1__2"`. -/
def chainOk : List Char → Bool
  | a :: b :: rest => !(a == '_' && b == '_') && chainOk (b :: rest)
  | _ => true

/-- Value of the sign-free body of a CPython `int()` literal: a non-empty
ASCII digit string, possibly with single underscores strictly between
digits; `none` when the body is not of that shape. -/
def pyIntBody? (l : List Char) : Option Nat :=
  if (match l with | [] => false | c :: _ => c.isDigit)
      && (match l.getLast? with | some c => c.isDigit | none => false)
      && l.all (fun c => c.isDigit || c == '_')
      && chainOk l then
    some ((l.filter Char.isDigit).foldl (fun v c => v * 10 + (c.toNat - 48)) 0)
  else
    none

/-- Model of the builtin `int(str)` (restricted to ASCII input): strip
surrounding whitespace, allow one optional sign, then parse a digit body. -/
def pyInt? (s : String) : Option Int :=
  let t := ((s.data.dropWhile Char.isWhitespace).reverse.dropWhile Char.isWhitespace).reverse
  match t with
  | [] => none
  | c :: rest =>
    if c == '-' then (pyIntBody? rest).map (fun n => -(n : Int))
    else if c == '+' then (pyIntBody? rest).map (fun n => (n : Int))
    else (pyIntBody? (c :: rest)).map (fun n => (n : Int))

/-- The builtin `int(str)` as an `Except`: a failed parse is the
`ValueError` modelled by `PyError.intParse`. -/
def pyInt (s : String) : Except PyError Int :=
  match pyInt? s with
  | some n => .ok n
  | none => .error .intParse

/-- Python `str.split` with a one-character separator, on character lists:
`"1.2.3"` gives three groups, adjacent separators give empty groups, and the
empty string gives the single empty group. -/
def splitChar (sep : Char) : List Char → List (List Char)
  | [] => [[]]
  | c :: cs =>
    if c = sep then [] :: splitChar sep cs
    else
      match splitChar sep cs with
      | [] => [[c]]
      | g :: gs => (c :: g) :: gs

/-- Python `version.split(".")` on strings. -/
def splitDot (s : String) : List String := (splitChar '.' s.data).map (fun l => (⟨l⟩ : String))

/-- Python `ord(c) - ord(a) + 1`, where `ord(a) = 97`, an `Int` since
Python subtraction is unclamped. -/
def charVal (c : Char) : Int := (c.toNat : Int) - 97 + 1

/-- The fold inside `suffix_key` (line 50-53 of `update_version.py`):
`value = value * 26 + (ord(char) - ord(a) + 1)` over the characters. -/
def listKey (l : List Char) : Int := l.foldl (fun value c => value * 26 + charVal c) 0

/-- `suffix_key` from `get_latest_version`: bijective base-26 ordinal of a
suffix string (`"a" = 1`, ..., `"z" = 26`, `"aa" = 27`, ...). -/
def suffix_key (suffix : String) : Int := listKey suffix.data

/-- The comparison key produced by `version_key`. -/
abbrev VKey := Int × Int × Int × Int

/-- Python tuple `<` on the 4-tuples produced by `version_key`
(lexicographic strict order). -/
def tupLt (a b : VKey) : Prop :=
  a.1 < b.1 ∨ (a.1 = b.1 ∧ (a.2.1 < b.2.1 ∨ (a.2.1 = b.2.1 ∧
    (a.2.2.1 < b.2.2.1 ∨ (a.2.2.1 = b.2.2.1 ∧ a.2.2.2 < b.2.2.2)))))

instance (a b : VKey) : Decidable (tupLt a b) := by
  unfold tupLt; exact inferInstance

/-- Python tuple `<=` on the 4-tuples produced by `version_key`. -/
def tupLe (a b : VKey) : Prop := tupLt a b ∨ a = b

instance (a b : VKey) : Decidable (tupLe a b) := by
  unfold tupLe; exact inferInstance

/-- Body of `version_key` after the split (lines 54-60): convert the first
three parts with `int` (unpacking fails when there are fewer than three
parts), default the suffix to `"a"` when exactly three parts are present,
otherwise take `parts[3]`. -/
def version_key_parts (parts : List String) : Except PyError VKey :=
  match parts with
  | [] => .error .unpackError
  | [p0] =>
    match pyInt p0 with
    | .error e => .error e
    | .ok _ => .error .unpackError
  | [p0, p1] =>
    match pyInt p0 with
    | .error e => .error e
    | .ok _ =>
      match pyInt p1 with
      | .error e => .error e
      | .ok _ => .error .unpackError
  | p0 :: p1 :: p2 :: rest =>
    match pyInt p0 with
    | .error e => .error e
    | .ok major =>
      match pyInt p1 with
      | .error e => .error e
      | .ok minor =>
        match pyInt p2 with
        | .error e => .error e
        | .ok patch =>
          let suffix := match rest with | [] => "a" | s :: _ => s
          .ok (major, minor, patch, suffix_key suffix)

/-- `version_key` from `get_latest_version` (lines 44-60): split the
version on `"."` and build the comparison tuple
`(major, minor, patch, suffix_key(suffix))`. -/
def version_key (version : String) : Except PyError VKey :=
  version_key_parts (splitDot version)

/-- Loop of the Python call `max(versions, key=version_key)`: keep the current
best and its cached key, replacing the best exactly when the key of a later
element is strictly greater; a key computation that raises propagates. -/
def maxAux (best : String) (bk : VKey) : List String → Except PyError String
  | [] => .ok best
  | x :: xs =>
    match version_key x with
    | .error e => .error e
    | .ok kx => if tupLt bk kx then maxAux x kx xs else maxAux best bk xs

/-- `get_latest_version` (lines 39-62): raise on an empty list, otherwise
`max(versions, key=version_key)`. -/
def get_latest_version (versions : List String) : Except PyError String :=
  match versions with
  | [] => .error .emptyInput
  | v :: vs =>
    match version_key v with
    | .error e => .error e
    | .ok k => maxAux v k vs

/-- The backward scan of `increment_suffix` (lines 70-82), expressed on the
reversed character list: a `z` becomes an `a` and the carry moves on; the
first character that is not a `z` is replaced by `chr(ord(c) + 1)` and the
scan stops; a full carry-out appends the extra `a` (the front of the
original string). -/
def incR : List Char → List Char
  | [] => ['a']
  | c :: cs => if c = 'z' then 'a' :: incR cs else Char.ofNat (c.toNat + 1) :: cs

/-- `increment_suffix` (lines 63-84): empty input yields `"a"`, otherwise
the backward carry scan runs from the last character. -/
def increment_suffix (suffix : String) : String :=
  if suffix = "" then "a"
  else ⟨(incR suffix.data.reverse).reverse⟩

/-- Body of `update_version` after the split-and-pad step (lines 108-128):
convert the three numeric parts, apply the `major`/`minor`/`patch`
precedence chain, then — as the code is written — increment the suffix when
`commit` is set and otherwise raise the no-directive `ValueError`. -/
def update_version_core (p0 p1 p2 p3 : String)
    (major minor patch commit : Bool) : Except PyError String :=
  match pyInt p0 with
  | .error e => .error e
  | .ok major_ver =>
    match pyInt p1 with
    | .error e => .error e
    | .ok minor_ver =>
      match pyInt p2 with
      | .error e => .error e
      | .ok patch_ver =>
        let t :=
          if major then (major_ver + 1, (0 : Int), (0 : Int))
          else if minor then (major_ver, minor_ver + 1, (0 : Int))
          else if patch then (major_ver, minor_ver, patch_ver + 1)
          else (major_ver, minor_ver, patch_ver)
        if commit then
          .ok (toString t.1 ++ "." ++ toString t.2.1 ++ "." ++ toString t.2.2
            ++ "." ++ increment_suffix p3)
        else .error .noDirective

/-- `update_version` (lines 86-128): split the version on `"."`, pad a
3-part version with the default suffix `"a"`, raise the malformed-version
`ValueError` unless exactly four parts result, then run the core body. -/
def update_version (current_version : String)
    (major minor patch commit : Bool) : Except PyError String :=
  let parts := splitDot current_version
  let parts := if parts.length = 3 then parts ++ ["a"] else parts
  match parts with
  | [p0, p1, p2, p3] => update_version_core p0 p1 p2 p3 major minor patch commit
  | _ => .error .malformedVersion

/-- Python `str.replace` for a non-empty pattern (the only way the two file
updaters call it): scan left to right, replacing every non-overlapping
occurrence of `pat` by `rep`. -/
def replaceList (s pat rep : List Char) : List Char :=
  match s with
  | [] => []
  | c :: cs =>
    if h : pat ≠ [] ∧ pat.isPrefixOf (c :: cs) then
      rep ++ replaceList ((c :: cs).drop pat.length) pat rep
    else
      c :: replaceList cs pat rep
termination_by s.length
decreasing_by
  · have hp : 0 < pat.length := List.length_pos.mpr h.1
    simp [List.length_drop]
    omega
  · simp

/-- `str.replace` lifted to `String`. -/
def pyReplace (s pat rep : String) : String := ⟨replaceList s.data pat.data rep.data⟩

/-- A single-quote character as a string. -/
def squote : String := String.singleton (Char.ofNat 39)

/-- The pure text transformation of `update_version_in_setup` (lines
139-147): the content of the file with every occurrence of the exact
single-quoted literal `version=<sq>old_version<sq>` (with `<sq>` the
single-quote character) replaced by the same literal built from the new
version; the file read and write around it are modelled as content in,
content out. -/
def update_version_in_setup (content old_version new_version : String) : String :=
  pyReplace content ("version=" ++ squote ++ old_version ++ squote)
    ("version=" ++ squote ++ new_version ++ squote)

/-- The pure text transformation of `update_version_in_init` (lines
149-156): same replacement with the `__version__ = <sq>old_version<sq>`
literal. -/
def update_version_in_init (content old_version new_version : String) : String :=
  pyReplace content ("__version__ = " ++ squote ++ old_version ++ squote)
    ("__version__ = " ++ squote ++ new_version ++ squote)

/-! ### Facts about the suffix ordinal and `increment_suffix` -/

theorem toNat_ofNat_of_lt {n : Nat} (h : n < 55296) : (Char.ofNat n).toNat = n := by
  rw [Char.ofNat, dif_pos (Or.inl h)]
  rfl

theorem eq_z_of_toNat_eq {c : Char} (h : c.toNat = 122) : c = 'z' := by
  have h2 := Char.ofNat_toNat c
  rw [h] at h2
  rw [← h2]

theorem toNat_le_of_ne_z {c : Char} (hle : c.toNat ≤ 122) (hne : c ≠ 'z') :
    c.toNat ≤ 121 := by
  rcases Nat.lt_or_ge c.toNat 122 with h | h
  · omega
  · exact absurd (eq_z_of_toNat_eq (by omega)) hne

theorem listKey_concat (l : List Char) (c : Char) :
    listKey (l ++ [c]) = listKey l * 26 + charVal c := by
  simp [listKey, List.foldl_append]

theorem incR_listKey (l : List Char) (hl : ∀ c ∈ l, 97 ≤ c.toNat ∧ c.toNat ≤ 122) :
    listKey (incR l).reverse = listKey l.reverse + 1 := by
  induction l with
  | nil => decide
  | cons c cs ih =>
    have hc := hl c (List.mem_cons_self c cs)
    have hcs : ∀ x ∈ cs, 97 ≤ x.toNat ∧ x.toNat ≤ 122 :=
      fun x hx => hl x (List.mem_cons_of_mem c hx)
    by_cases hz : c = 'z'
    · subst hz
      rw [incR, if_pos rfl]
      rw [List.reverse_cons, List.reverse_cons, listKey_concat, listKey_concat, ih hcs]
      have ha : charVal 'a' = 1 := by decide
      have hzv : charVal 'z' = 26 := by decide
      rw [ha, hzv]
      ring
    · have h121 : c.toNat ≤ 121 := toNat_le_of_ne_z hc.2 hz
      have hofn : (Char.ofNat (c.toNat + 1)).toNat = c.toNat + 1 :=
        toNat_ofNat_of_lt (by omega)
      rw [incR, if_neg hz]
      rw [List.reverse_cons, List.reverse_cons, listKey_concat, listKey_concat]
      have hstep : charVal (Char.ofNat (c.toNat + 1)) = charVal c + 1 := by
        simp only [charVal, hofn]
        push_cast
        ring
      rw [hstep]
      ring

/-- C5: `increment_suffix` is the successor of the bijective base-26
ordinal encoding: for every string of lowercase letters (the empty string
included, and `97 ≤ toNat ≤ 122` says exactly that a character lies in
the range `a`..`z`), `suffix_key (increment_suffix s) = suffix_key s + 1`; moreover
`increment_suffix` maps `"z"` to `"aa"`, `"zz"` to `"aaa"`, `""` to `"a"`
and `"az"` to `"ba"`. -/
theorem increment_suffix_succ_ordinal :
    (∀ s : String, (∀ c ∈ s.data, 97 ≤ c.toNat ∧ c.toNat ≤ 122) →
      suffix_key (increment_suffix s) = suffix_key s + 1)
    ∧ increment_suffix "z" = "aa" ∧ increment_suffix "zz" = "aaa"
    ∧ increment_suffix "" = "a" ∧ increment_suffix "az" = "ba" := by
  refine ⟨?_, by decide, by decide, by decide, by decide⟩
  intro s hs
  by_cases h0 : s = ""
  · subst h0; decide
  · rw [increment_suffix, if_neg h0]
    have hrev : ∀ c ∈ s.data.reverse, 97 ≤ c.toNat ∧ c.toNat ≤ 122 :=
      fun c hc => hs c (List.mem_reverse.mp hc)
    have h := incR_listKey s.data.reverse hrev
    rw [List.reverse_reverse] at h
    simpa [suffix_key] using h

/-- Closed instance of `increment_suffix_succ_ordinal` at the concrete
suffix `"az"`. -/
theorem increment_suffix_succ_ordinal_witness :
    suffix_key (increment_suffix "az") = suffix_key "az" + 1 :=
  increment_suffix_succ_ordinal.1 "az" (by decide)

/-! ### Facts about the key ordering and `get_latest_version` -/

theorem tupLe_refl (a : VKey) : tupLe a a := Or.inr rfl

theorem tupLt_le {a b : VKey} (h : tupLt a b) : tupLe a b := Or.inl h

theorem tupLe_trans {a b c : VKey} (h1 : tupLe a b) (h2 : tupLe b c) : tupLe a c := by
  obtain ⟨a1, a2, a3, a4⟩ := a
  obtain ⟨b1, b2, b3, b4⟩ := b
  obtain ⟨c1, c2, c3, c4⟩ := c
  simp only [tupLe, tupLt, Prod.mk.injEq] at h1 h2 ⊢
  omega

theorem tupLe_of_not_lt {a b : VKey} (h : ¬ tupLt a b) : tupLe b a := by
  obtain ⟨a1, a2, a3, a4⟩ := a
  obtain ⟨b1, b2, b3, b4⟩ := b
  simp only [tupLe, tupLt, Prod.mk.injEq] at h ⊢
  omega

theorem maxAux_cons_ok {x : String} {kx : VKey} (hk : version_key x = .ok kx)
    (best : String) (bk : VKey) (xs : List String) :
    maxAux best bk (x :: xs) =
      if tupLt bk kx then maxAux x kx xs else maxAux best bk xs := by
  rw [maxAux, hk]

theorem maxAux_cons_error {x : String} {e : PyError} (hk : version_key x = .error e)
    (best : String) (bk : VKey) (xs : List String) :
    maxAux best bk (x :: xs) = .error e := by
  rw [maxAux, hk]

theorem get_latest_version_cons_ok {v : String} {k : VKey} (hk : version_key v = .ok k)
    (vs : List String) : get_latest_version (v :: vs) = maxAux v k vs := by
  rw [get_latest_version, hk]

theorem get_latest_version_cons_error {v : String} {e : PyError}
    (hk : version_key v = .error e) (vs : List String) :
    get_latest_version (v :: vs) = .error e := by
  rw [get_latest_version, hk]

theorem pyInt_error_eq {s : String} {e : PyError} (h : pyInt s = .error e) :
    e = .intParse := by
  unfold pyInt at h
  cases hp : pyInt? s with
  | none => rw [hp] at h; exact (Except.error.inj h).symm
  | some n => rw [hp] at h; cases h

theorem version_key_parts_ne_emptyInput (parts : List String) :
    version_key_parts parts ≠ .error .emptyInput := by
  rcases parts with _ | ⟨p0, _ | ⟨p1, _ | ⟨p2, rest⟩⟩⟩
  · simp [version_key_parts]
  · rcases h0 : pyInt p0 with e0 | n0
    · have := pyInt_error_eq h0; subst this; simp [version_key_parts, h0]
    · simp [version_key_parts, h0]
  · rcases h0 : pyInt p0 with e0 | n0
    · have := pyInt_error_eq h0; subst this; simp [version_key_parts, h0]
    · rcases h1 : pyInt p1 with e1 | n1
      · have := pyInt_error_eq h1; subst this; simp [version_key_parts, h0, h1]
      · simp [version_key_parts, h0, h1]
  · rcases h0 : pyInt p0 with e0 | n0
    · have := pyInt_error_eq h0; subst this; simp [version_key_parts, h0]
    · rcases h1 : pyInt p1 with e1 | n1
      · have := pyInt_error_eq h1; subst this; simp [version_key_parts, h0, h1]
      · rcases h2 : pyInt p2 with e2 | n2
        · have := pyInt_error_eq h2; subst this; simp [version_key_parts, h0, h1, h2]
        · simp [version_key_parts, h0, h1, h2]

theorem version_key_ne_emptyInput (v : String) :
    version_key v ≠ .error .emptyInput :=
  version_key_parts_ne_emptyInput (splitDot v)

theorem maxAux_ne_emptyInput :
    ∀ (xs : List String) (best : String) (bk : VKey),
      maxAux best bk xs ≠ .error .emptyInput := by
  intro xs
  induction xs with
  | nil => intro best bk; simp [maxAux]
  | cons x xs ih =>
    intro best bk
    cases hk : version_key x with
    | error e =>
      rw [maxAux_cons_error hk]
      intro h
      have he : e = PyError.emptyInput := Except.error.inj h
      subst he
      exact version_key_ne_emptyInput x hk
    | ok kx =>
      rw [maxAux_cons_ok hk]
      by_cases hlt : tupLt bk kx
      · rw [if_pos hlt]; exact ih x kx
      · rw [if_neg hlt]; exact ih best bk

theorem maxAux_mem :
    ∀ (xs : List String) (best : String) (bk : VKey) (r : String),
      maxAux best bk xs = .ok r → r = best ∨ r ∈ xs := by
  intro xs
  induction xs with
  | nil =>
    intro best bk r h
    simp only [maxAux] at h
    exact Or.inl (Except.ok.inj h).symm
  | cons x xs ih =>
    intro best bk r h
    cases hk : version_key x with
    | error e => rw [maxAux_cons_error hk] at h; cases h
    | ok kx =>
      rw [maxAux_cons_ok hk] at h
      by_cases hlt : tupLt bk kx
      · rw [if_pos hlt] at h
        rcases ih x kx r h with h1 | h1
        · exact Or.inr (by simp [h1])
        · exact Or.inr (List.mem_cons_of_mem _ h1)
      · rw [if_neg hlt] at h
        rcases ih best bk r h with h1 | h1
        · exact Or.inl h1
        · exact Or.inr (List.mem_cons_of_mem _ h1)

theorem maxAux_le :
    ∀ (xs : List String) (best : String) (bk : VKey),
      version_key best = .ok bk →
      (∀ x ∈ xs, ∃ k, version_key x = .ok k) →
      ∃ r kr, maxAux best bk xs = .ok r ∧ version_key r = .ok kr ∧ tupLe bk kr ∧
        ∀ x ∈ xs, ∀ kx, version_key x = .ok kx → tupLe kx kr := by
  intro xs
  induction xs with
  | nil =>
    intro best bk hb _
    exact ⟨best, bk, rfl, hb, tupLe_refl bk, by simp⟩
  | cons x xs ih =>
    intro best bk hb hall
    obtain ⟨kx, hkx⟩ := hall x (List.mem_cons_self x xs)
    have hall' : ∀ y ∈ xs, ∃ k, version_key y = .ok k :=
      fun y hy => hall y (List.mem_cons_of_mem x hy)
    by_cases hlt : tupLt bk kx
    · obtain ⟨r, kr, hmax, hkr, hle, hrest⟩ := ih x kx hkx hall'
      refine ⟨r, kr, ?_, hkr, tupLe_trans (tupLt_le hlt) hle, ?_⟩
      · rw [maxAux_cons_ok hkx, if_pos hlt]; exact hmax
      · intro y hy ky hky
        rcases List.mem_cons.mp hy with h1 | h1
        · subst h1
          rw [hkx] at hky
          have : kx = ky := Except.ok.inj hky
          subst this
          exact hle
        · exact hrest y h1 ky hky
    · obtain ⟨r, kr, hmax, hkr, hle, hrest⟩ := ih best bk hb hall'
      refine ⟨r, kr, ?_, hkr, hle, ?_⟩
      · rw [maxAux_cons_ok hkx, if_neg hlt]; exact hmax
      · intro y hy ky hky
        rcases List.mem_cons.mp hy with h1 | h1
        · subst h1
          rw [hkx] at hky
          have : kx = ky := Except.ok.inj hky
          subst this
          exact tupLe_trans (tupLe_of_not_lt hlt) hle
        · exact hrest y h1 ky hky

/-- C4: on a non-empty list of strings whose keys all compute (every
well-formed version is such a string), `get_latest_version` returns an
element whose `version_key` tuple is a maximum of all the keys under the
lexicographic tuple order, and on the two example lists of the spec it returns
`"1.2.4"` and `"1.0.0.aa"` respectively. -/
theorem get_latest_version_is_max_key :
    (∀ vs : List String, vs ≠ [] →
      (∀ v ∈ vs, ∃ k, version_key v = .ok k) →
      ∃ r kr, get_latest_version vs = .ok r ∧ version_key r = .ok kr ∧
        ∀ v ∈ vs, ∀ kv, version_key v = .ok kv → tupLe kv kr)
    ∧ get_latest_version ["1.2.3", "1.2.3.b", "1.2.4"] = .ok "1.2.4"
    ∧ get_latest_version ["1.0.0.a", "1.0.0.z", "1.0.0.aa"] = .ok "1.0.0.aa" := by
  refine ⟨?_, by decide, by decide⟩
  intro vs hne hall
  match vs with
  | v :: rest =>
    obtain ⟨k, hk⟩ := hall v (List.mem_cons_self v rest)
    obtain ⟨r, kr, hmax, hkr, hle, hrest⟩ :=
      maxAux_le rest v k hk (fun y hy => hall y (List.mem_cons_of_mem v hy))
    refine ⟨r, kr, ?_, hkr, ?_⟩
    · rw [get_latest_version_cons_ok hk]; exact hmax
    · intro y hy ky hky
      rcases List.mem_cons.mp hy with h1 | h1
      · subst h1
        rw [hk] at hky
        have : k = ky := Except.ok.inj hky
        subst this
        exact hle
      · exact hrest y h1 ky hky

/-- Closed instance of `get_latest_version_is_max_key` on the concrete
list `["1.2.3", "1.2.4"]`. -/
theorem get_latest_version_is_max_key_witness :
    ∃ r kr, get_latest_version ["1.2.3", "1.2.4"] = .ok r ∧
      version_key r = .ok kr ∧
      ∀ v ∈ ["1.2.3", "1.2.4"], ∀ kv, version_key v = .ok kv → tupLe kv kr :=
  get_latest_version_is_max_key.1 ["1.2.3", "1.2.4"] (by decide)
    (by
      intro v hv
      rcases List.mem_cons.mp hv with h1 | h1
      · exact ⟨(1, 2, 3, 1), by rw [h1]; decide⟩
      · have h2 : v = "1.2.4" := by simpa using h1
        exact ⟨(1, 2, 4, 1), by rw [h2]; decide⟩)

/-- C8: `get_latest_version` fails with the empty-input error exactly on
the empty list; on any non-empty list it never raises that error (its
other failures are distinct errors of the key function). -/
theorem get_latest_version_empty_error_iff (vs : List String) :
    get_latest_version vs = .error .emptyInput ↔ vs = [] := by
  constructor
  · intro h
    cases vs with
    | nil => rfl
    | cons v rest =>
      exfalso
      cases hk : version_key v with
      | error e =>
        rw [get_latest_version_cons_error hk] at h
        have he : e = PyError.emptyInput := Except.error.inj h
        subst he
        exact version_key_ne_emptyInput v hk
      | ok k =>
        rw [get_latest_version_cons_ok hk] at h
        exact maxAux_ne_emptyInput rest v k h
  · rintro rfl; rfl

/-- C10: whenever `get_latest_version` returns a string, that string is an
element of the input list, in its original textual form. -/
theorem get_latest_version_mem (vs : List String) (r : String)
    (h : get_latest_version vs = .ok r) : r ∈ vs := by
  match vs with
  | [] => rw [get_latest_version] at h; cases h
  | v :: rest =>
    cases hk : version_key v with
    | error e => rw [get_latest_version_cons_error hk] at h; cases h
    | ok k =>
      rw [get_latest_version_cons_ok hk] at h
      rcases maxAux_mem rest v k r h with h1 | h1
      · simp [h1]
      · exact List.mem_cons_of_mem _ h1

/-- Closed instance of `get_latest_version_mem`: the result on
`["1.2.3", "1.2.3.b", "1.2.4"]` is a member of that list. -/
theorem get_latest_version_mem_witness :
    "1.2.4" ∈ ["1.2.3", "1.2.3.b", "1.2.4"] :=
  get_latest_version_mem ["1.2.3", "1.2.3.b", "1.2.4"] "1.2.4" (by decide)

/-! ### Facts about `update_version` -/

theorem update_version_core_ne_malformed (p0 p1 p2 p3 : String)
    (ma mi pa co : Bool) :
    update_version_core p0 p1 p2 p3 ma mi pa co ≠ .error .malformedVersion := by
  unfold update_version_core
  rcases h0 : pyInt p0 with e0 | n0
  · have := pyInt_error_eq h0; subst this
    intro hc; exact PyError.noConfusion (Except.error.inj hc)
  rcases h1 : pyInt p1 with e1 | n1
  · have := pyInt_error_eq h1; subst this
    intro hc; exact PyError.noConfusion (Except.error.inj hc)
  rcases h2 : pyInt p2 with e2 | n2
  · have := pyInt_error_eq h2; subst this
    intro hc; exact PyError.noConfusion (Except.error.inj hc)
  cases co
  · intro hc; exact PyError.noConfusion (Except.error.inj hc)
  · intro hc; exact Except.noConfusion hc

theorem update_version_eq (s : String) (ma mi pa co : Bool) :
    update_version s ma mi pa co =
      match (if (splitDot s).length = 3 then splitDot s ++ ["a"] else splitDot s) with
      | [p0, p1, p2, p3] => update_version_core p0 p1 p2 p3 ma mi pa co
      | _ => .error .malformedVersion := rfl

theorem update_version_parts_malformed_iff (l : List String) (ma mi pa co : Bool) :
    (match (if l.length = 3 then l ++ ["a"] else l) with
      | [p0, p1, p2, p3] => update_version_core p0 p1 p2 p3 ma mi pa co
      | _ => .error .malformedVersion) = .error .malformedVersion ↔
      ¬ (l.length = 3 ∨ l.length = 4) := by
  rcases l with _ | ⟨a, _ | ⟨b, _ | ⟨c, _ | ⟨d, _ | ⟨e, rest⟩⟩⟩⟩⟩
  · simp
  · simp
  · simp
  · simp [update_version_core_ne_malformed a b c "a" ma mi pa co]
  · simp [update_version_core_ne_malformed a b c d ma mi pa co]
  · have h5 : (a :: b :: c :: d :: e :: rest).length ≠ 3 := by
      simp only [List.length_cons]; omega
    rw [if_neg h5]
    simp only [List.length_cons]
    constructor
    · intro _; omega
    · intro _; trivial

/-- C3: `update_version` fails with the malformed-version error exactly
when the version string does not split into 3 or 4 dot-separated
components; when it does split into 3 or 4 components, whatever else
happens, the malformed-version error is never raised. -/
theorem update_version_malformed_iff (s : String) (ma mi pa co : Bool) :
    update_version s ma mi pa co = .error .malformedVersion ↔
      ¬ ((splitDot s).length = 3 ∨ (splitDot s).length = 4) := by
  rw [update_version_eq]
  exact update_version_parts_malformed_iff (splitDot s) ma mi pa co

/-- C1: at the well-formed current version `"1.2.3.c"` with the numeric
directive `major` set and `commit` not set, `update_version` does not
return `"2.0.0.c"`: it raises the no-directive `ValueError`, because the
`else: raise` in the code is attached to `if commit:` rather than to the
absence of all four flags. -/
theorem update_version_major_without_commit_raises :
    update_version "1.2.3.c" true false false false = .error .noDirective := by
  decide

/-- C2: `update_version` raises the no-directive error even when a
directive is set, as long as `commit` is unset — here with `patch=True` on
`"1.0.0"` — and it also raises it when all four flags are false, so the
claimed equivalence with "all four flags false" fails in the
forward direction. -/
theorem update_version_noDirective_despite_patch :
    update_version "1.0.0" false false true false = .error .noDirective
    ∧ update_version "1.0.0" false false false false = .error .noDirective := by
  constructor <;> decide

/-- C6: with `minor=True` and `commit=False` on the well-formed version
`"1.2.3"`, the numeric fields do not become `(1, 3, 0)`: the call raises
the no-directive error instead of returning any version at all. -/
theorem update_version_noDirective_despite_minor :
    update_version "1.2.3" false true false false = .error .noDirective := by
  decide

/-- C7: `update_version("1.2.3", major=True, commit=True)` returns
`"2.0.0.b"`: the missing suffix defaults to `"a"`, the major bump resets
minor and patch, and `commit` increments the suffix to `"b"`. -/
theorem update_version_major_commit_example :
    update_version "1.2.3" true false false true = .ok "2.0.0.b" := by
  decide

/-- Numeric precedence of the directives on every successful run (every
run with `commit` set, the only ones that return): `major` wins over
`minor`, which wins over `patch`, and with none of the three the numeric
fields are unchanged. Stated over the already-split parts. -/
theorem update_version_core_precedence (p0 p1 p2 p3 : String)
    (ma mi pa : Bool) (n0 n1 n2 : Int)
    (h0 : pyInt p0 = .ok n0) (h1 : pyInt p1 = .ok n1) (h2 : pyInt p2 = .ok n2) :
    update_version_core p0 p1 p2 p3 ma mi pa true =
      (let t :=
        if ma then (n0 + 1, (0 : Int), (0 : Int))
        else if mi then (n0, n1 + 1, (0 : Int))
        else if pa then (n0, n1, n2 + 1)
        else (n0, n1, n2)
      .ok (toString t.1 ++ "." ++ toString t.2.1 ++ "." ++ toString t.2.2
        ++ "." ++ increment_suffix p3)) := by
  unfold update_version_core
  rw [h0, h1, h2]
  rfl

/-! ### Facts about the literal file-content replacement -/

theorem replaceList_nil (pat rep : List Char) : replaceList [] pat rep = [] := by
  rw [replaceList]

theorem replaceList_of_absent (pat rep : List Char) :
    ∀ s : List Char, ¬ pat <:+: s → replaceList s pat rep = s := by
  intro s
  induction s with
  | nil => intro _; exact replaceList_nil pat rep
  | cons c cs ih =>
    intro h
    have hnp : ¬ (pat ≠ [] ∧ pat.isPrefixOf (c :: cs)) := by
      rintro ⟨hne, hpre⟩
      exact h (List.isPrefixOf_iff_prefix.mp hpre).isInfix
    have htl : ¬ pat <:+: cs := fun hc => h (List.infix_cons hc)
    rw [replaceList, dif_neg hnp, ih htl]

/-- C9: each file updater is a pure literal replacement of the exact
single-quoted occurrence string, and when that exact literal does not
occur in the content, the content is returned completely unchanged. -/
theorem update_files_noop_when_literal_absent (content old_version new_version : String) :
    (¬ ("version=" ++ squote ++ old_version ++ squote).data <:+: content.data →
      update_version_in_setup content old_version new_version = content)
    ∧ (¬ ("__version__ = " ++ squote ++ old_version ++ squote).data <:+: content.data →
      update_version_in_init content old_version new_version = content) := by
  constructor
  · intro h
    unfold update_version_in_setup pyReplace
    rw [replaceList_of_absent _ _ _ h]
  · intro h
    unfold update_version_in_init pyReplace
    rw [replaceList_of_absent _ _ _ h]

/-- Closed instance of `update_files_noop_when_literal_absent`: content
that carries the version only in double quotes is left unchanged by both
updaters. -/
theorem update_files_noop_when_literal_absent_witness :
    update_version_in_setup "version=\"1.0.0\"" "1.0.0" "2.0.0" = "version=\"1.0.0\""
    ∧ update_version_in_init "__version__ = \"1.0.0\"" "1.0.0" "2.0.0"
        = "__version__ = \"1.0.0\"" :=
  ⟨(update_files_noop_when_literal_absent "version=\"1.0.0\"" "1.0.0" "2.0.0").1 (by decide),
   (update_files_noop_when_literal_absent "__version__ = \"1.0.0\"" "1.0.0" "2.0.0").2 (by decide)⟩

/-- Closed instance of `update_version_malformed_iff`: the 2-part string
`"1.2"` does raise the malformed-version error. -/
theorem update_version_malformed_iff_witness :
    update_version "1.2" true true true true = .error .malformedVersion :=
  (update_version_malformed_iff "1.2" true true true true).mpr (by decide)

/-- Closed instance of `get_latest_version_empty_error_iff` at the empty
list. -/
theorem get_latest_version_empty_error_iff_witness :
    get_latest_version [] = .error .emptyInput :=
  (get_latest_version_empty_error_iff []).mpr rfl

end UpdateVersion
